import Mathlib

/-!
# Verification of the desqueeze upload/transcode server

A shallow embedding of `src/server.js`, an Express server that accepts a
video upload, probes its duration with ffprobe, transcodes it with ffmpeg
(scaling width by a "desqueeze" factor), streams `progress:<pct>` lines over
the open HTTP response, and finishes with either a
`download:<url>` + `status:done` pair or a single `status:error` line.

JavaScript numbers are modelled as exact rationals (`ℚ`); `NaN` is modelled
by `Option.none` wherever the source can produce it (`parseFloat`/`parseInt`
failing).  `Infinity` cannot arise from the finite numeric literals the
server parses, except through float overflow (e.g. `"1e999"`), which the
rational model idealises as a (huge) finite value; no claim below depends on
that corner.  Event-driven code (child-process `data`/`close`/`error`
callbacks) is modelled by folding the installed handlers over an explicit
event trace.
-/

namespace Desqueeze

/-! ## JavaScript numeric string parsing (`parseInt(s,10)` / `parseFloat(s)`)

`parseInt(s, 10)` skips leading whitespace, takes an optional sign and then
the longest prefix of decimal digits, returning `NaN` (here `none`) if no
digit is found.  `parseFloat(s)` additionally accepts a fractional part and
an exponent part.  Both stop at the first character that cannot extend the
numeral. -/

def natOfDigits (l : List Char) : ℕ :=
  l.foldl (fun a c => a * 10 + (c.toNat - 48)) 0

/-- Longest prefix of decimal digits, `none` if empty (JS `NaN`). -/
def digitsVal (l : List Char) : Option ℕ :=
  let d := l.takeWhile Char.isDigit
  if d.isEmpty then none else some (natOfDigits d)

def skipWS (l : List Char) : List Char :=
  l.dropWhile Char.isWhitespace

def parseIntCore (l : List Char) : Option ℤ :=
  if l.head? = some '-' then (digitsVal l.tail).map (fun n => -(n : ℤ))
  else if l.head? = some '+' then (digitsVal l.tail).map (fun n => (n : ℤ))
  else (digitsVal l).map (fun n => (n : ℤ))

/-- JS `parseInt(s, 10)`; `none` models `NaN`. -/
def parseIntJS (s : String) : Option ℤ :=
  parseIntCore (skipWS s.data)

/-- Exponent digits (after the optional sign); an exponent with no digits
contributes nothing, exactly as JS stops parsing before the `e`. -/
def expTail (l : List Char) : ℤ :=
  if l.head? = some '-' then
    match digitsVal l.tail with
    | some n => -(n : ℤ)
    | none => 0
  else if l.head? = some '+' then
    match digitsVal l.tail with
    | some n => (n : ℤ)
    | none => 0
  else
    match digitsVal l with
    | some n => (n : ℤ)
    | none => 0

def expVal (l : List Char) : ℤ :=
  if l.head? = some 'e' || l.head? = some 'E' then expTail l.tail else 0

/-- Unsigned decimal literal `digits [. digits] [exp]` with at least one
digit in the integer or fractional part; the value of
`ip.fp × 10^exp`. -/
def parseUnsigned (l : List Char) : Option ℚ :=
  let ip := l.takeWhile Char.isDigit
  let r1 := l.dropWhile Char.isDigit
  let fp := if r1.head? = some '.' then r1.tail.takeWhile Char.isDigit else []
  let r2 := if r1.head? = some '.' then r1.tail.dropWhile Char.isDigit else r1
  if ip.isEmpty && fp.isEmpty then none
  else some (((natOfDigits ip : ℚ) + (natOfDigits fp : ℚ) / 10 ^ fp.length) * 10 ^ expVal r2)

def parseFloatCore (l : List Char) : Option ℚ :=
  if l.head? = some '-' then (parseUnsigned l.tail).map (fun q => -q)
  else if l.head? = some '+' then parseUnsigned l.tail
  else parseUnsigned l

/-- JS `parseFloat(s)`; `none` models `NaN`. -/
def parseFloatJS (s : String) : Option ℚ :=
  parseFloatCore (skipWS s.data)

/-! ## Form-field handling (server.js lines 79–81)

```js
const factor = Math.max(1, parseFloat(req.body.factor || "1"));
const fps = req.body.fps === "copy" ? null : parseInt(req.body.fps || "0", 10) || null;
const bitrate = parseInt(req.body.bitrate || "8000000", 10);
```

A missing field is `undefined` and an empty string is falsy, so `x || d`
yields the default in both cases.  `Math.max(1, NaN) = NaN`, and
`NaN || null = null`, `0 || null = null`. -/

/-- JS `field || default` on an optional string field. -/
def jsOrDefault (field : Option String) (d : String) : String :=
  match field with
  | none => d
  | some s => if s = "" then d else s

/-- `Math.max(1, parseFloat(req.body.factor || "1"))`; `none` is `NaN`. -/
def parseFactor (field : Option String) : Option ℚ :=
  (parseFloatJS (jsOrDefault field "1")).map (fun v => max 1 v)

/-- `req.body.fps === "copy" ? null : parseInt(req.body.fps || "0", 10) || null`.
The result `none` means "preserve the source frame rate" (no `-r` flag). -/
def parseFps (field : Option String) : Option ℤ :=
  if field = some "copy" then none
  else
    match parseIntJS (jsOrDefault field "0") with
    | none => none
    | some n => if n = 0 then none else some n

/-- `parseInt(req.body.bitrate || "8000000", 10)`; `none` is `NaN`. -/
def parseBitrate (field : Option String) : Option ℤ :=
  parseIntJS (jsOrDefault field "8000000")

/-! ## Duration prober (server.js lines 53–69)

```js
function probeDuration(file) {
  return new Promise((resolve) => {
    const p = spawn(ffprobePath, [...]);
    let out = "";
    p.stdout.on("data", d => (out += d.toString()));
    p.on("close", () => {
      const sec = parseFloat(out.trim());
      resolve(isFinite(sec) ? sec : 0);
    });
    p.on("error", () => resolve(0));
  });
}
```

The observable behaviour of the spawned tool is either a spawn failure
(`error` event) or termination (`close` event) carrying an exit code and the
accumulated stdout.  The `close` handler ignores the exit code.  `out.trim()`
is subsumed by `parseFloatJS` (leading whitespace is skipped by `parseFloat`
itself and trailing characters stop the parse), so it is dropped here.
`isFinite` rejects exactly the `NaN` (`none`) case in the rational model. -/

inductive ProbeEvent where
  | spawnError : ProbeEvent
  | closed (code : Option ℤ) (stdout : String) : ProbeEvent

def probeDuration : ProbeEvent → ℚ
  | .spawnError => 0
  | .closed _ out =>
    match parseFloatJS out with
    | some q => q
    | none => 0

/-! ## Desqueeze filter (server.js line 92)

```js
const vf = `scale=trunc(iw*${factor}/2)*2:ih,setsar=1`;
```

The filter string is built verbatim around the printed factor; ffmpeg
evaluates the width expression `trunc(iw*factor/2)*2` (truncation toward
zero) with `iw` the input width, keeps the height `ih`, and `setsar=1`
resets the pixel aspect ratio to square. -/

def vfString (factor : String) : String :=
  "scale=trunc(iw*" ++ factor ++ "/2)*2:ih,setsar=1"

/-- Truncation toward zero, ffmpeg expression `trunc`. -/
def truncQ (q : ℚ) : ℤ :=
  if 0 ≤ q then ⌊q⌋ else -⌊-q⌋

/-- The output width ffmpeg computes from the filter expression
`trunc(iw*factor/2)*2`. -/
def scaleWidth (iw : ℕ) (factor : ℚ) : ℤ :=
  2 * truncQ ((iw : ℚ) * factor / 2)

/-! ## The stderr progress translator (server.js lines 107–121)

```js
let lastPct = -1;
ff.stderr.on("data", (buf) => {
  const s = buf.toString();
  const m = s.match(/time=(\d+):(\d+):([\d.]+)/);
  if (m && dur > 0) {
    const t = (parseInt(m[1],10)*3600) + (parseInt(m[2],10)*60) + parseFloat(m[3]);
    const pct = Math.max(0, Math.min(100, Math.floor((t / dur) * 100)));
    if (pct !== lastPct) {
      lastPct = pct;
      res.write(`progress:${pct}\n`);
    }
  }
});
```

`s.match(re)` finds the leftmost position at which the whole pattern
matches; on failure at a candidate position the scan resumes at the next
character.  The three groups `(\d+)`, `(\d+)`, `([\d.]+)` are greedy, and
since a digit run is never followed by more digits, no backtracking can
occur. -/

/-- Try the pattern `(\d+):(\d+):([\d.]+)` at the position right after a
`time=` occurrence; returns the three matched groups. -/
def matchAt (l : List Char) : Option (String × String × String) :=
  let g1 := l.takeWhile Char.isDigit
  let r1 := l.dropWhile Char.isDigit
  if g1.isEmpty then none
  else
    match r1 with
    | ':' :: r2 =>
      let g2 := r2.takeWhile Char.isDigit
      let r3 := r2.dropWhile Char.isDigit
      if g2.isEmpty then none
      else
        match r3 with
        | ':' :: r4 =>
          let g3 := r4.takeWhile (fun c => c.isDigit || c = '.')
          if g3.isEmpty then none
          else some (g1.asString, g2.asString, g3.asString)
        | _ => none
    | _ => none

/-- Try to read the literal `time=` starting at `c :: r` and then match the
groups right after it. -/
def tryTimeAt (c : Char) (r : List Char) : Option (String × String × String) :=
  if c = 't' then
    match r with
    | 'i' :: 'm' :: 'e' :: '=' :: rr => matchAt rr
    | _ => none
  else none

/-- Leftmost match of `/time=(\d+):(\d+):([\d.]+)/`: at each position try to
read the literal `time=` followed by the groups, otherwise move one
character right. -/
def matchTimeAux : List Char → Option (String × String × String)
  | [] => none
  | c :: r =>
    match tryTimeAt c r with
    | some g => some g
    | none => matchTimeAux r

def matchTime (s : String) : Option (String × String × String) :=
  matchTimeAux s.data

/-- `t = parseInt(m[1])*3600 + parseInt(m[2])*60 + parseFloat(m[3])`; any
`NaN` operand makes the sum `NaN`. -/
def elapsedOf (hs ms ss : String) : Option ℚ :=
  match parseIntJS hs, parseIntJS ms, parseFloatJS ss with
  | some h, some m, some f => some ((h : ℚ) * 3600 + (m : ℚ) * 60 + f)
  | _, _, _ => none

/-- `Math.max(0, Math.min(100, Math.floor((t / dur) * 100)))`. -/
def pctOf (dur t : ℚ) : ℤ :=
  max 0 (min 100 ⌊t / dur * 100⌋)

/-- JS strict inequality `!==` on the (possibly-`NaN`) percentage values:
`NaN` differs from everything, including itself. -/
def jsNeq (a b : Option ℤ) : Bool :=
  match a, b with
  | some x, some y => x != y
  | _, _ => true

/-- One `data` callback: `last` is the current `lastPct` (`some (-1)`
initially, `none` once `lastPct` holds `NaN`); returns the new `lastPct`
and the percentage values written (as `progress:<pct>` lines). -/
def stderrStep (dur : ℚ) (last : Option ℤ) (chunk : String) :
    Option ℤ × List (Option ℤ) :=
  match matchTime chunk with
  | none => (last, [])
  | some (hs, ms, ss) =>
    if 0 < dur then
      if jsNeq ((elapsedOf hs ms ss).map (pctOf dur)) last then
        ((elapsedOf hs ms ss).map (pctOf dur), [(elapsedOf hs ms ss).map (pctOf dur)])
      else (last, [])
    else (last, [])

/-- Fold the `data` handler over the whole sequence of stderr chunks. -/
def runStderr (dur : ℚ) (last : Option ℤ) : List String → Option ℤ × List (Option ℤ)
  | [] => (last, [])
  | c :: cs =>
    let s1 := stderrStep dur last c
    let s2 := runStderr dur s1.1 cs
    (s2.1, s1.2 ++ s2.2)

/-- JS number-to-string in the template `progress:${pct}`. -/
def renderPct : Option ℤ → String
  | none => "NaN"
  | some n => toString n

def progressLine (v : Option ℤ) : String :=
  "progress:" ++ renderPct v ++ "\n"

/-! ## The upload request handler (server.js lines 72–149)

The handler sets the response headers, then inside `try` parses the fields,
probes the duration, spawns ffmpeg and installs the three callbacks.  The
externally observable run of one job is:

* `setupErr` — an exception inside the `try` before the callbacks could run
  (caught by the `catch` block), or
* `proc chunks term` — ffmpeg was spawned, its stderr delivered `chunks` to
  the `data` handler, and then exactly one terminating event fired: `close`
  with an exit code (`null` when killed by a signal) or the `error` event
  (spawn failure).

Express responses default to HTTP status 200; the handler never touches the
status, only the two headers below, so the model fixes them at
construction. -/

inductive ProcTerm where
  | close (code : Option ℤ) : ProcTerm
  | procErr : ProcTerm

inductive JobRun where
  | setupErr : JobRun
  | proc (chunks : List String) (term : ProcTerm) : JobRun

structure Response where
  status : ℕ
  contentType : String
  transferEncoding : String
  /-- chunks written with `res.write`, in order -/
  body : List String
  /-- whether `res.end()` was called -/
  ended : Bool
  deriving Repr, DecidableEq

def initialResponse : Response :=
  { status := 200
    contentType := "text/plain; charset=utf-8"
    transferEncoding := "chunked"
    body := []
    ended := false }

/-- The whole `app.post("/upload")` job, as a function of the probed
duration, the download URL the success branch would build, and the job's
event trace.  Returns the final response and the list of paths passed to
`fs.unlink`. -/
def handleUpload (tmpPath url : String) (dur : ℚ) (run : JobRun) :
    Response × List String :=
  let r0 := initialResponse
  match run with
  | .setupErr =>
    ({ r0 with body := ["status:error\n"], ended := true }, [tmpPath])
  | .proc chunks term =>
    let prog := ((runStderr dur (some (-1)) chunks).2).map progressLine
    match term with
    | .close code =>
      if code = some 0 then
        ({ r0 with
            body := prog ++ ["download:" ++ url ++ "\n", "status:done\n"]
            ended := true }, [tmpPath])
      else
        ({ r0 with body := prog ++ ["status:error\n"], ended := true }, [tmpPath])
    | .procErr =>
      ({ r0 with body := prog ++ ["status:error\n"], ended := true }, [tmpPath])

/-! ## Output path construction (server.js lines 78, 85–86)

```js
const origName = req.file.originalname.replace(/\.[^.]+$/, "");
const outBase = `${origName}_desq_${Date.now()}.mp4`;
const outPath = path.join(downloadsDir, outBase);
```

The regex `\.[^.]+$` matches the last dot followed by one or more non-dot
characters at the very end of the string — a final dot-extension — and the
`replace` removes that suffix (or does nothing when there is no such
suffix).  `path.join` concatenates with `/` and then normalises `.` and
`..` segments; `downloadsDir` is absolute, so `..` segments at the root are
dropped. -/

/-- The character class `[^.]` of the extension-stripping regex. -/
def notDot (c : Char) : Bool := c ≠ '.'

/-- `name.replace(/\.[^.]+$/, "")`: strip a final dot-extension. -/
def stripExt (s : String) : String :=
  let r := s.data.reverse
  let ext := r.takeWhile notDot
  let rest := r.dropWhile notDot
  match rest with
  | '.' :: rest' => if ext.isEmpty then s else (rest'.reverse).asString
  | _ => s

/-- Split a character list on `'/'`. -/
def splitSlash : List Char → List (List Char)
  | [] => [[]]
  | c :: r =>
    let rest := splitSlash r
    if c = '/' then [] :: rest
    else
      match rest with
      | s :: ss => (c :: s) :: ss
      | [] => [[c]]

/-- Join segments with `'/'` separators. -/
def joinSlash : List (List Char) → List Char
  | [] => []
  | [s] => s
  | s :: rest => s ++ '/' :: joinSlash rest

/-- POSIX path normalisation of the `/`-separated segments of an absolute
path: drop empty and `.` segments, let `..` pop the previous segment (or
vanish at the root). -/
def normSegs : List (List Char) → List (List Char) → List (List Char)
  | acc, [] => acc.reverse
  | acc, s :: rest =>
    if s = [] || s = ['.'] then normSegs acc rest
    else if s = ['.', '.'] then
      match acc with
      | [] => normSegs [] rest
      | _ :: acc' => normSegs acc' rest
    else normSegs (s :: acc) rest

/-- Node `path.join(dir, b)` for an absolute `dir`: concatenate with `/`,
then normalise. -/
def joinPath (dir b : String) : String :=
  ⟨'/' :: joinSlash (normSegs [] (splitSlash (dir.data ++ '/' :: b.data)))⟩

def outBase (origName : String) (ts : ℕ) : String :=
  stripExt origName ++ "_desq_" ++ toString ts ++ ".mp4"

def outPathOf (downloadsDir origName : String) (ts : ℕ) : String :=
  joinPath downloadsDir (outBase origName ts)

/-- The elapsed-time value a chunk feeds into the percentage computation:
`none` when the regex does not match, `some none` when it matches but the
seconds group parses to `NaN`, `some (some t)` otherwise. -/
def timeOf (c : String) : Option (Option ℚ) :=
  (matchTime c).map (fun g => elapsedOf g.1 g.2.1 g.2.2)

/-! ## Helper lemmas -/

lemma digit_ne {c : Char} (h : c.isDigit = true) {d : Char} (hd : d.isDigit = false) :
    c ≠ d := by
  rintro rfl
  rw [h] at hd
  exact Bool.noConfusion hd

lemma isDigit_not_ws {c : Char} (h : c.isDigit = true) : c.isWhitespace = false := by
  have h1 := digit_ne h (d := ' ') (by decide)
  have h2 := digit_ne h (d := '\t') (by decide)
  have h3 := digit_ne h (d := '\r') (by decide)
  have h4 := digit_ne h (d := '\n') (by decide)
  simp [Char.isWhitespace, h1, h2, h3, h4]

lemma digitOrDot_not_ws {c : Char} (h : c.isDigit = true ∨ c = '.') :
    c.isWhitespace = false := by
  rcases h with h | rfl
  · exact isDigit_not_ws h
  · decide

lemma digitOrDot_ne_dash {c : Char} (h : c.isDigit = true ∨ c = '.') : c ≠ '-' := by
  rcases h with h | rfl
  · exact digit_ne h (by decide)
  · decide

lemma digitOrDot_ne_plus {c : Char} (h : c.isDigit = true ∨ c = '.') : c ≠ '+' := by
  rcases h with h | rfl
  · exact digit_ne h (by decide)
  · decide

/-- `skipWS` is the identity on a list whose first character is not
whitespace. -/
lemma skipWS_no_ws {l : List Char} (h : ∀ c, l.head? = some c → c.isWhitespace = false) :
    skipWS l = l := by
  cases l with
  | nil => rfl
  | cons c r =>
    unfold skipWS
    rw [List.dropWhile_cons, h c rfl]
    simp

lemma digitsVal_all_digits {l : List Char} (h1 : l ≠ []) (h2 : ∀ c ∈ l, c.isDigit) :
    digitsVal l = some (natOfDigits l) := by
  unfold digitsVal
  rw [List.takeWhile_eq_self_iff.mpr h2]
  simp [h1]

/-- `parseInt` of a nonempty all-digit string is its decimal value. -/
lemma parseIntJS_digits {s : String} (h1 : s.data ≠ []) (h2 : ∀ c ∈ s.data, c.isDigit) :
    parseIntJS s = some (natOfDigits s.data) := by
  obtain ⟨c, r, hcr⟩ : ∃ c r, s.data = c :: r := by
    cases hd : s.data with
    | nil => exact absurd hd h1
    | cons c r => exact ⟨c, r, rfl⟩
  have hc : c.isDigit := h2 c (by rw [hcr]; exact List.mem_cons_self c r)
  unfold parseIntJS
  rw [skipWS_no_ws (by rw [hcr]; rintro d hd; cases hd; exact isDigit_not_ws hc)]
  unfold parseIntCore
  rw [hcr]
  have hdash : c ≠ '-' := digit_ne hc (by decide)
  have hplus : c ≠ '+' := digit_ne hc (by decide)
  simp only [List.head?_cons, Option.some.injEq, hdash, hplus, if_false]
  rw [← hcr, digitsVal_all_digits h1 h2]
  rfl

lemma parseUnsigned_nonneg {l : List Char} {q : ℚ} (h : parseUnsigned l = some q) :
    0 ≤ q := by
  simp only [parseUnsigned] at h
  repeat' split at h
  all_goals first
    | (rw [Option.some.injEq] at h; subst h; positivity)
    | exact absurd h (by simp)

/-- A successfully parsed float whose string does not start with `'-'` is
nonnegative. -/
lemma parseFloatJS_nonneg {s : String} {q : ℚ}
    (hhead : ∀ c, s.data.head? = some c → (c.isDigit = true ∨ c = '.'))
    (h : parseFloatJS s = some q) : 0 ≤ q := by
  unfold parseFloatJS at h
  cases hd : s.data with
  | nil =>
    rw [hd] at h
    simp [skipWS, parseFloatCore, parseUnsigned] at h
  | cons c r =>
    have hc := hhead c (by rw [hd]; rfl)
    rw [hd, skipWS_no_ws (by rintro d hdd; cases hdd; exact digitOrDot_not_ws hc)] at h
    unfold parseFloatCore at h
    have hdash : c ≠ '-' := digitOrDot_ne_dash hc
    have hplus : c ≠ '+' := digitOrDot_ne_plus hc
    simp only [List.head?_cons, Option.some.injEq, hdash, hplus, if_false] at h
    exact parseUnsigned_nonneg h

/-- Shape of the three regex groups: `(\d+)`, `(\d+)`, `([\d.]+)`. -/
def isTimeGroups (g : String × String × String) : Prop :=
  (g.1.data ≠ [] ∧ ∀ c ∈ g.1.data, c.isDigit)
  ∧ (g.2.1.data ≠ [] ∧ ∀ c ∈ g.2.1.data, c.isDigit)
  ∧ (g.2.2.data ≠ [] ∧ ∀ c ∈ g.2.2.data, c.isDigit = true ∨ c = '.')

lemma matchAt_shape {l : List Char} {g : String × String × String}
    (h : matchAt l = some g) : isTimeGroups g := by
  obtain ⟨a, b, c⟩ := g
  simp only [matchAt] at h
  repeat' split at h
  all_goals try exact Option.noConfusion h
  simp only [Option.some.injEq, Prod.mk.injEq] at h
  obtain ⟨rfl, rfl, rfl⟩ := h
  refine ⟨⟨?_, fun c hc => List.mem_takeWhile_imp hc⟩,
          ⟨?_, fun c hc => List.mem_takeWhile_imp hc⟩,
          ?_, fun c hc => by simpa using List.mem_takeWhile_imp hc⟩
  all_goals simp_all [List.asString]

lemma tryTimeAt_shape {c : Char} {r : List Char} {g : String × String × String}
    (h : tryTimeAt c r = some g) : isTimeGroups g := by
  unfold tryTimeAt at h
  split at h
  · split at h
    · exact matchAt_shape h
    · exact Option.noConfusion h
  · exact Option.noConfusion h

lemma matchTimeAux_shape {l : List Char} {g : String × String × String}
    (h : matchTimeAux l = some g) : isTimeGroups g := by
  induction l with
  | nil => exact Option.noConfusion h
  | cons c r ih =>
    rw [matchTimeAux] at h
    split at h
    · rename_i g' hg'
      rw [Option.some.injEq] at h
      subst h
      exact tryTimeAt_shape hg'
    · exact ih h

lemma matchTime_shape {s : String} {g : String × String × String}
    (h : matchTime s = some g) : isTimeGroups g :=
  matchTimeAux_shape h

/-! Percentage arithmetic. -/

lemma pctOf_nonneg (dur t : ℚ) : 0 ≤ pctOf dur t := le_max_left 0 _

lemma pctOf_le_100 (dur t : ℚ) : pctOf dur t ≤ 100 :=
  max_le (by norm_num) (min_le_left 100 _)

lemma pctOf_mono {dur t t' : ℚ} (hdur : 0 < dur) (h : t ≤ t') :
    pctOf dur t ≤ pctOf dur t' := by
  unfold pctOf
  have h1 : t / dur * 100 ≤ t' / dur * 100 := by
    have := (div_le_div_iff_of_pos_right hdur).mpr h
    linarith
  exact max_le_max le_rfl (min_le_min le_rfl (Int.floor_le_floor h1))

/-- The source's `max(0, min(100, floor(x*100)))` coincides with the spec's
`floor(clamp(x,0,1)*100)` for `x ≥ 0`. -/
lemma pctOf_eq_clamp {dur t : ℚ} (hdur : 0 < dur) (ht : 0 ≤ t) :
    pctOf dur t = ⌊max 0 (min 1 (t / dur)) * 100⌋ := by
  unfold pctOf
  have hx : 0 ≤ t / dur := div_nonneg ht hdur.le
  rw [max_eq_right (le_min (by norm_num) hx)]
  rcases le_or_lt (t / dur) 1 with h1 | h1
  · rw [min_eq_right h1]
    have hub : ⌊t / dur * 100⌋ ≤ 100 := by
      have : t / dur * 100 ≤ 100 := by nlinarith
      calc ⌊t / dur * 100⌋ ≤ ⌊(100 : ℚ)⌋ := Int.floor_le_floor this
        _ = 100 := by norm_num
    have hlb : (0 : ℤ) ≤ ⌊t / dur * 100⌋ := by
      rw [Int.floor_nonneg]
      positivity
    rw [min_eq_right hub, max_eq_right hlb]
  · rw [min_eq_left h1.le]
    have hge : (100 : ℤ) ≤ ⌊t / dur * 100⌋ := by
      have : (100 : ℚ) ≤ t / dur * 100 := by nlinarith
      calc (100 : ℤ) = ⌊(100 : ℚ)⌋ := by norm_num
        _ ≤ ⌊t / dur * 100⌋ := Int.floor_le_floor this
    rw [min_eq_left hge, max_eq_right (by norm_num)]
    norm_num

/-! Structural lemmas about the stderr handler. -/

lemma stderrStep_no_match {c : String} (hm : matchTime c = none) (dur : ℚ)
    (last : Option ℤ) : stderrStep dur last c = (last, []) := by
  unfold stderrStep
  rw [hm]

lemma stderrStep_nonpos {dur : ℚ} (hdur : dur ≤ 0) (last : Option ℤ) (c : String) :
    stderrStep dur last c = (last, []) := by
  unfold stderrStep
  split
  · rfl
  · rw [if_neg (by exact absurd · (not_lt.mpr hdur))]

lemma stderrStep_match {c : String} {hs ms ss : String}
    (hm : matchTime c = some (hs, ms, ss)) {dur : ℚ} (hdur : 0 < dur)
    (last : Option ℤ) :
    stderrStep dur last c =
      (if jsNeq ((elapsedOf hs ms ss).map (pctOf dur)) last then
        ((elapsedOf hs ms ss).map (pctOf dur), [(elapsedOf hs ms ss).map (pctOf dur)])
      else (last, [])) := by
  unfold stderrStep
  simp only [hm]
  rw [if_pos hdur]

lemma runStderr_nonpos {dur : ℚ} (hdur : dur ≤ 0) (last : Option ℤ)
    (chunks : List String) : runStderr dur last chunks = (last, []) := by
  induction chunks with
  | nil => rfl
  | cons c cs ih =>
    rw [runStderr, stderrStep_nonpos hdur, ih]
    rfl

/-- Every emitted percentage value is `NaN` or an integer in `[0, 100]`. -/
lemma runStderr_bounds {dur : ℚ} {last : Option ℤ} {chunks : List String} {n : ℤ}
    (h : some n ∈ (runStderr dur last chunks).2) : 0 ≤ n ∧ n ≤ 100 := by
  induction chunks generalizing last with
  | nil => exact absurd h (by simp [runStderr])
  | cons c cs ih =>
    rw [runStderr] at h
    rw [List.mem_append] at h
    rcases h with h | h
    · -- emitted by this step
      unfold stderrStep at h
      split at h
      · exact absurd h (by simp)
      · split at h
        · split at h
          · rw [List.mem_singleton] at h
            obtain ⟨t, -, hn⟩ := Option.map_eq_some'.mp h.symm
            exact ⟨hn ▸ pctOf_nonneg dur t, hn ▸ pctOf_le_100 dur t⟩
          · exact absurd h (by simp)
        · exact absurd h (by simp)
    · exact ih h

/-- Consecutive writes always differ in the JS `!==` sense (each write is
guarded by `pct !== lastPct`). -/
lemma runStderr_chain (dur : ℚ) (last : Option ℤ) (chunks : List String) :
    List.Chain (fun a b => jsNeq b a = true) last (runStderr dur last chunks).2 := by
  induction chunks generalizing last with
  | nil => exact List.Chain.nil
  | cons c cs ih =>
    rw [runStderr]
    unfold stderrStep
    split
    · simpa using ih last
    · split
      · split
        · rename_i hneq
          exact List.Chain.cons hneq (by simpa using ih _)
        · simpa using ih last
      · simpa using ih last

/-- When every matched chunk's elapsed time parses (no `NaN`) and the parsed
elapsed times are non-decreasing, the emitted percentages strictly increase
from the initial `lastPct`. -/
lemma runStderr_mono {dur : ℚ} (hdur : 0 < dur) :
    ∀ (chunks : List String) (last0 : ℤ),
      (chunks.filterMap (fun c => (timeOf c).bind id)).Sorted (· ≤ ·) →
      (∀ c ∈ chunks, timeOf c ≠ some none) →
      (∀ t ∈ chunks.filterMap (fun c => (timeOf c).bind id), last0 ≤ pctOf dur t) →
      ∃ ns : List ℤ, (runStderr dur (some last0) chunks).2 = ns.map some
        ∧ List.Chain (· < ·) last0 ns := by
  intro chunks
  induction chunks with
  | nil =>
    intro last0 _ _ _
    exact ⟨[], rfl, List.Chain.nil⟩
  | cons c cs ih =>
    intro last0 hsort hgood hbound
    have hgoodtail : ∀ x ∈ cs, timeOf x ≠ some none :=
      fun x hx => hgood x (List.mem_cons_of_mem _ hx)
    cases hmc : matchTime c with
    | none =>
      have htc : timeOf c = none := by simp [timeOf, hmc]
      have hfm : (c :: cs).filterMap (fun x => (timeOf x).bind id)
          = cs.filterMap (fun x => (timeOf x).bind id) := by
        rw [List.filterMap_cons, htc]
        rfl
      rw [hfm] at hsort hbound
      obtain ⟨ns, h1, h2⟩ := ih last0 hsort hgoodtail hbound
      refine ⟨ns, ?_, h2⟩
      rw [runStderr, stderrStep_no_match hmc]
      simpa using h1
    | some g =>
      obtain ⟨hs, ms, ss⟩ := g
      have htc : timeOf c = some (elapsedOf hs ms ss) := by simp [timeOf, hmc]
      have hgc := hgood c (List.mem_cons_self c cs)
      rw [htc] at hgc
      cases hel : elapsedOf hs ms ss with
      | none => exact absurd (by rw [hel]) hgc
      | some t =>
        have hfm : (c :: cs).filterMap (fun x => (timeOf x).bind id)
            = t :: cs.filterMap (fun x => (timeOf x).bind id) := by
          rw [List.filterMap_cons, htc, hel]
          rfl
        rw [hfm] at hsort hbound
        rw [List.sorted_cons] at hsort
        obtain ⟨htle, hsorttail⟩ := hsort
        have hheadb : last0 ≤ pctOf dur t := hbound t (List.mem_cons_self _ _)
        have hstep := stderrStep_match hmc hdur (some last0)
        rw [hel] at hstep
        simp only [Option.map_some'] at hstep
        by_cases hpq : pctOf dur t = last0
        · -- skipped: value equal to lastPct
          rw [runStderr, hstep]
          have hcond : jsNeq (some (pctOf dur t)) (some last0) = false := by
            simp [jsNeq, hpq]
          rw [hcond]
          simp only [Bool.false_eq_true, if_false]
          obtain ⟨ns, h1, h2⟩ := ih last0 hsorttail hgoodtail
            (fun x hx => le_trans (hpq ▸ le_rfl)
              (pctOf_mono hdur (htle x hx)))
          exact ⟨ns, by simpa using h1, h2⟩
        · -- emitted: strictly above lastPct
          rw [runStderr, hstep]
          have hcond : jsNeq (some (pctOf dur t)) (some last0) = true := by
            simp [jsNeq, hpq]
          rw [hcond]
          simp only [if_true]
          obtain ⟨ns, h1, h2⟩ := ih (pctOf dur t) hsorttail hgoodtail
            (fun x hx => pctOf_mono hdur (htle x hx))
          refine ⟨pctOf dur t :: ns, ?_, ?_⟩
          · simpa using h1
          · exact List.Chain.cons (lt_of_le_of_ne hheadb (fun hh => hpq hh.symm)) h2

lemma truncQ_of_nonneg {q : ℚ} (h : 0 ≤ q) : truncQ q = ⌊q⌋ := by
  unfold truncQ
  rw [if_pos h]

lemma floor_half_nat (n : ℕ) : ⌊(n : ℚ) / 2⌋ = (n : ℤ) / 2 := by
  set k : ℤ := (n : ℤ) / 2 with hk
  have h2 : k * 2 ≤ (n : ℤ) ∧ (n : ℤ) < k * 2 + 2 := by omega
  rw [Int.floor_eq_iff]
  constructor
  · rw [le_div_iff₀ (by norm_num : (0 : ℚ) < 2)]
    exact_mod_cast h2.1
  · rw [div_lt_iff₀ (by norm_num : (0 : ℚ) < 2)]
    have h3 : (n : ℤ) < (k + 1) * 2 := by linarith [h2.2]
    exact_mod_cast h3

/-- **C6**: the video filter scales the width to `iw * factor` rounded down
to the nearest even integer (`trunc(iw*factor/2)*2`), keeps the height
(`ih`) and resets the pixel aspect ratio (`setsar=1`); with `factor = 1` the
output width is the input width rounded down to even, with `factor = 1.5`
input width 1000 gives 1500 and input width 999 gives 1498. -/
theorem c6_scale_filter :
    (∀ f : String, vfString f = "scale=trunc(iw*" ++ f ++ "/2)*2:ih,setsar=1")
  ∧ (∀ (iw : ℕ) (f : ℚ), 0 ≤ f →
      2 ∣ scaleWidth iw f ∧ (scaleWidth iw f : ℚ) ≤ (iw : ℚ) * f
        ∧ (iw : ℚ) * f - 2 < (scaleWidth iw f : ℚ))
  ∧ (∀ iw : ℕ, scaleWidth iw 1 = 2 * ((iw : ℤ) / 2))
  ∧ scaleWidth 1000 (3/2) = 1500 ∧ scaleWidth 999 (3/2) = 1498 := by
  refine ⟨fun f => rfl, ?_, ?_, ?_, ?_⟩
  · intro iw f hf
    have hx : (0 : ℚ) ≤ (iw : ℚ) * f / 2 := by positivity
    unfold scaleWidth
    rw [truncQ_of_nonneg hx]
    refine ⟨⟨⌊(iw : ℚ) * f / 2⌋, rfl⟩, ?_, ?_⟩
    · have := Int.floor_le ((iw : ℚ) * f / 2)
      push_cast
      linarith
    · have := Int.sub_one_lt_floor ((iw : ℚ) * f / 2)
      push_cast
      linarith
  · intro iw
    unfold scaleWidth
    rw [mul_one, truncQ_of_nonneg (by positivity), floor_half_nat]
  · unfold scaleWidth truncQ
    norm_num
  · unfold scaleWidth truncQ
    norm_num

/-- **C6 witness**: the clamping clause instantiated at `iw = 999`,
`factor = 3/2`. -/
theorem c6_scale_filter_witness :
    (0 : ℚ) ≤ 3/2 ∧ 2 ∣ scaleWidth 999 (3/2) :=
  ⟨by norm_num, (c6_scale_filter.2.1 999 (3/2) (by norm_num)).1⟩

/-- **C3 counterexample**: two parts of the claim fail on the code.  A
present but malformed `bitrate` field does not get the 8,000,000 default —
`parseInt("garbage", 10)` is `NaN` and the handler uses it as-is.  And an
invalid `fps` field does not always fall back to "preserve source rate":
`"-3"` is not a positive integer, yet `parseInt("-3", 10) = -3` is truthy,
so the handler forces the output rate with `-r -3` instead of preserving
the source rate (`none`). -/
theorem c3_counterexample :
    (parseBitrate (some "garbage") = none ∧ (none : Option ℤ) ≠ some 8000000)
  ∧ (parseFps (some "-3") = some (-3) ∧ (some (-3) : Option ℤ) ≠ none) := by
  exact ⟨⟨by decide, by decide⟩, ⟨by decide, by decide⟩⟩

/-- **C3 amended**: the factor is the parsed value clamped to a minimum of
1 (default 1 when the field is absent); fps falls back to "preserve source
rate" exactly when the field is absent, empty, `"copy"`, parses to `0`, or
is unparsable (`NaN`) — any other parsed integer, including a negative one,
is used verbatim as the forced output rate; the bitrate defaults to
8,000,000 only when the field is absent or empty — a present malformed
value parses to `NaN` (no default). -/
theorem c3_amended :
    parseFactor none = some 1
  ∧ (∀ (s : String) (v : ℚ), s ≠ "" → parseFloatJS s = some v →
      parseFactor (some s) = some (max 1 v))
  ∧ (parseFps none = none ∧ parseFps (some "") = none ∧ parseFps (some "copy") = none
     ∧ parseFps (some "0") = none
     ∧ (∀ s : String, s ≠ "copy" → s ≠ "" → parseIntJS s = none →
         parseFps (some s) = none)
     ∧ (∀ (s : String) (n : ℤ), s ≠ "copy" → s ≠ "" → parseIntJS s = some n → n ≠ 0 →
         parseFps (some s) = some n))
  ∧ (parseBitrate none = some 8000000 ∧ parseBitrate (some "") = some 8000000
     ∧ ∀ s : String, s ≠ "" → parseIntJS s = none → parseBitrate (some s) = none) := by
  refine ⟨?_, ?_, ⟨by decide, by decide, by decide, by decide, ?_, ?_⟩,
    ⟨by decide, by decide, ?_⟩⟩
  · show (parseFloatJS "1").map (fun v => max 1 v) = some 1
    have h1 : parseFloatJS "1" = some 1 := by
      simp [parseFloatJS, parseFloatCore, skipWS, parseUnsigned, expVal, expTail,
        digitsVal, natOfDigits]
    rw [h1]
    simp
  · intro s v hs hv
    simp only [parseFactor, jsOrDefault, if_neg hs, hv]
    rfl
  · intro s hcopy hempty hnan
    simp only [parseFps, jsOrDefault]
    rw [if_neg (show ¬(some s = some "copy") by simpa using hcopy), if_neg hempty, hnan]
  · intro s n hcopy hempty hn hn0
    simp only [parseFps, jsOrDefault]
    rw [if_neg (show ¬(some s = some "copy") by simpa using hcopy), if_neg hempty, hn]
    simp only [if_neg hn0]
  · intro s hempty hnan
    simp only [parseBitrate, jsOrDefault]
    rw [if_neg hempty]
    exact hnan

/-- **C3 amended witness**: the amended clauses instantiated at concrete
fields `factor = "2.5"`, `fps = "abc"` and `fps = "-3"`,
`bitrate = "xyz"`. -/
theorem c3_amended_witness :
    parseFactor (some "2.5") = some (max 1 (5/2))
  ∧ parseFps (some "abc") = none
  ∧ parseFps (some "-3") = some (-3)
  ∧ parseBitrate (some "xyz") = none :=
  ⟨c3_amended.2.1 "2.5" (5/2) (by decide)
      (by simp [parseFloatJS, parseFloatCore, skipWS, parseUnsigned, expVal, expTail,
            digitsVal, natOfDigits]; norm_num),
   c3_amended.2.2.1.2.2.2.2.1 "abc" (by decide) (by decide) (by decide),
   c3_amended.2.2.1.2.2.2.2.2 "-3" (-3) (by decide) (by decide) (by decide) (by decide),
   c3_amended.2.2.2.2.2 "xyz" (by decide) (by decide)⟩

/-- **C5 counterexample**: `probeDuration` is not always `≥ 0` and does not
return 0 on abnormal exits — the `close` handler ignores the exit code and
resolves whatever finite value stdout parses to: stdout `"-5"` resolves
`-5 < 0`, and an exit with code 1 and stdout `"3.5"` resolves `3.5 ≠ 0`. -/
theorem c5_counterexample :
    probeDuration (.closed (some 0) "-5") = -5
  ∧ (-5 : ℚ) < 0
  ∧ probeDuration (.closed (some 1) "3.5") = 7/2 := by
  refine ⟨?_, by norm_num, ?_⟩
  · simp [probeDuration, parseFloatJS, parseFloatCore, skipWS, parseUnsigned, expVal,
      expTail, digitsVal, natOfDigits]
  · simp [probeDuration, parseFloatJS, parseFloatCore, skipWS, parseUnsigned, expVal,
      expTail, digitsVal, natOfDigits]
    norm_num

/-- **C5 amended**: `probeDuration` always resolves (it is a total function
of the probe outcome — no error propagates): with 0 on spawn failure or
when stdout does not parse to a finite value, and otherwise with exactly
the parsed value — regardless of its sign and regardless of the tool's
exit code. -/
theorem c5_amended :
    probeDuration .spawnError = 0
  ∧ (∀ (code : Option ℤ) (out : String), parseFloatJS out = none →
      probeDuration (.closed code out) = 0)
  ∧ (∀ (code : Option ℤ) (out : String) (q : ℚ), parseFloatJS out = some q →
      probeDuration (.closed code out) = q) := by
  refine ⟨rfl, ?_, ?_⟩
  · intro code out h
    simp only [probeDuration]
    rw [h]
  · intro code out q h
    simp only [probeDuration]
    rw [h]

/-- **C5 amended witness**: instantiated at a closed probe outcome with
parsable stdout `"2.5"` and a spawn failure. -/
theorem c5_amended_witness :
    probeDuration (.closed (some 0) "2.5") = 5/2 :=
  c5_amended.2.2 (some 0) "2.5" (5/2)
    (by simp [parseFloatJS, parseFloatCore, skipWS, parseUnsigned, expVal, expTail,
          digitsVal, natOfDigits]; norm_num)

lemma dropWhile_head_not {p : Char → Bool} :
    ∀ {l : List Char} {c : Char} {r : List Char}, l.dropWhile p = c :: r → p c = false := by
  intro l
  induction l with
  | nil => intro c r h; exact List.noConfusion h
  | cons a as ih =>
    intro c r h
    rw [List.dropWhile_cons] at h
    split at h
    · exact ih h
    · rename_i hpa
      obtain ⟨rfl, rfl⟩ := List.cons.injEq .. ▸ h
      simpa using hpa

/-- **C10**: the only transformation of the client-supplied filename is
removal of the final dot-extension — `stripExt name` is a verbatim prefix
of `name`, separators included — and joining
`<base>_desq_<ts>.mp4` onto the downloads directory can escape it: the
original name `../../../../etc/cron.d/evil.mp4` produces the output path
`/etc/cron.d/evil_desq_0.mp4`, which does not lie under
`/srv/app/downloads`. -/
theorem c10_path_escape :
    (∀ name : String, ∃ ext : List Char, name.data = (stripExt name).data ++ ext)
  ∧ outPathOf "/srv/app/downloads" "../../../../etc/cron.d/evil.mp4" 0
      = "/etc/cron.d/evil_desq_0.mp4"
  ∧ (outPathOf "/srv/app/downloads" "../../../../etc/cron.d/evil.mp4" 0).data.take
      ("/srv/app/downloads".data.length) ≠ "/srv/app/downloads".data := by
  refine ⟨?_, by decide, by decide⟩
  intro name
  simp only [stripExt]
  split
  · rename_i rest' hrest
    split
    · exact ⟨[], by simp⟩
    · set tw := List.takeWhile notDot name.data.reverse with htw
      refine ⟨'.' :: tw.reverse, ?_⟩
      have hsplit := List.takeWhile_append_dropWhile (p := notDot) (l := name.data.reverse)
      rw [hrest, ← htw] at hsplit
      have hname := congrArg List.reverse hsplit
      rw [List.reverse_reverse, List.reverse_append, List.reverse_cons] at hname
      rw [← hname]
      simp [List.asString]
  · exact ⟨[], by simp⟩

/-- **C7**: for a chunk carrying a `time=HH:MM:SS.frac` marker whose groups
parse, and a positive duration, the handler computes exactly
`floor(clamp(elapsed/duration, 0, 1) * 100)` with
`elapsed = 3600*HH + 60*MM + SS.frac`, and writes it iff it differs from
`lastPct`. -/
theorem c7_pct_formula (dur : ℚ) (hdur : 0 < dur) (last : Option ℤ)
    (chunk hs ms ss : String) (hm : matchTime chunk = some (hs, ms, ss))
    (h m : ℤ) (sec : ℚ)
    (hh : parseIntJS hs = some h) (hmin : parseIntJS ms = some m)
    (hsec : parseFloatJS ss = some sec) :
    stderrStep dur last chunk =
      (let t : ℚ := (h : ℚ) * 3600 + (m : ℚ) * 60 + sec
       let pct : ℤ := ⌊max 0 (min 1 (t / dur)) * 100⌋
       if jsNeq (some pct) last then (some pct, [some pct]) else (last, [])) := by
  obtain ⟨⟨hh1, hh2⟩, ⟨hm1, hm2⟩, hs1, hs2⟩ := matchTime_shape hm
  have hh0 : 0 ≤ h := by
    rw [parseIntJS_digits hh1 hh2] at hh
    rw [← Option.some_inj.mp hh]
    positivity
  have hm0 : 0 ≤ m := by
    rw [parseIntJS_digits hm1 hm2] at hmin
    rw [← Option.some_inj.mp hmin]
    positivity
  have hsec0 : 0 ≤ sec := by
    refine parseFloatJS_nonneg ?_ hsec
    intro c hc
    cases hdd : ss.data with
    | nil => rw [hdd] at hc; exact Option.noConfusion hc
    | cons a r =>
      rw [hdd] at hc
      rw [List.head?_cons, Option.some_inj] at hc
      subst hc
      exact hs2 a (by rw [hdd]; exact List.mem_cons_self a r)
  have ht0 : (0 : ℚ) ≤ (h : ℚ) * 3600 + (m : ℚ) * 60 + sec := by
    have hhq : (0 : ℚ) ≤ (h : ℚ) := by exact_mod_cast hh0
    have hmq : (0 : ℚ) ≤ (m : ℚ) := by exact_mod_cast hm0
    positivity
  have hel : elapsedOf hs ms ss = some ((h : ℚ) * 3600 + (m : ℚ) * 60 + sec) := by
    simp only [elapsedOf, hh, hmin, hsec]
  rw [stderrStep_match hm hdur, hel]
  simp only [Option.map_some']
  rw [pctOf_eq_clamp hdur ht0]

/-- **C7 witness**: the chunk `time=0:0:2.0` with duration 4 and
`lastPct = -1` produces a single `progress:50` write. -/
theorem c7_pct_formula_witness :
    stderrStep 4 (some (-1)) "time=0:0:2.0" = (some 50, [some 50]) := by
  have h := c7_pct_formula 4 (by norm_num) (some (-1)) "time=0:0:2.0" "0" "0" "2.0"
    (by decide) 0 0 2 (by decide) (by decide)
    (by simp [parseFloatJS, parseFloatCore, skipWS, parseUnsigned, expVal, expTail,
          digitsVal, natOfDigits])
  rw [h]
  norm_num [jsNeq, min_def, max_def]

/-- Evaluation helper: a matching chunk with parsed elapsed time `t` and a
percentage differing from `lastPct` is emitted. -/
lemma stderrStep_eval {c hs ms ss : String} (hm : matchTime c = some (hs, ms, ss))
    {dur t : ℚ} (hdur : 0 < dur) (hel : elapsedOf hs ms ss = some t) {p : ℤ}
    (hp : pctOf dur t = p) (last : ℤ) (hne : p ≠ last) :
    stderrStep dur (some last) c = (some p, [some p]) := by
  rw [stderrStep_match hm hdur, hel]
  simp [jsNeq, hp, hne]

/-- **C2 counterexample**: the handler only compares against the previous
value, so a stderr stream whose elapsed-time markers go backwards
(`2s, 1s, 2s` with duration 4) emits `progress:50`, `progress:25`,
`progress:50` — a decreasing step and a repeated value — and a marker whose
seconds field is just `"."` emits the non-integer line `progress:NaN`. -/
theorem c2_counterexample :
    ((runStderr 4 (some (-1)) ["time=0:0:2.0", "time=0:0:1.0", "time=0:0:2.0"]).2.map
        progressLine = ["progress:50\n", "progress:25\n", "progress:50\n"]
      ∧ ["progress:50\n", "progress:25\n", "progress:50\n"].count "progress:50\n" = 2
      ∧ ¬ List.Chain' (· ≤ ·) [(50 : ℤ), 25, 50])
  ∧ (runStderr 4 (some (-1)) ["time=0:0:."]).2.map progressLine = ["progress:NaN\n"] := by
  have hdur : (0 : ℚ) < 4 := by norm_num
  have hm2 : matchTime "time=0:0:2.0" = some ("0", "0", "2.0") := by decide
  have hm1 : matchTime "time=0:0:1.0" = some ("0", "0", "1.0") := by decide
  have hmN : matchTime "time=0:0:." = some ("0", "0", ".") := by decide
  have hel2 : elapsedOf "0" "0" "2.0" = some 2 := by
    simp [elapsedOf, parseIntJS, parseIntCore, parseFloatJS, parseFloatCore, skipWS,
      parseUnsigned, expVal, expTail, digitsVal, natOfDigits]
  have hel1 : elapsedOf "0" "0" "1.0" = some 1 := by
    simp [elapsedOf, parseIntJS, parseIntCore, parseFloatJS, parseFloatCore, skipWS,
      parseUnsigned, expVal, expTail, digitsVal, natOfDigits]
  have helN : elapsedOf "0" "0" "." = none := by
    simp [elapsedOf, parseIntJS, parseIntCore, parseFloatJS, parseFloatCore, skipWS,
      parseUnsigned, expVal, expTail, digitsVal, natOfDigits]
  have hp2 : pctOf 4 2 = 50 := by norm_num [pctOf]
  have hp1 : pctOf 4 1 = 25 := by norm_num [pctOf]
  have s1 := stderrStep_eval hm2 hdur hel2 hp2 (-1) (by decide)
  have s2 := stderrStep_eval hm1 hdur hel1 hp1 50 (by decide)
  have s3 := stderrStep_eval hm2 hdur hel2 hp2 25 (by decide)
  have sN : stderrStep 4 (some (-1)) "time=0:0:." = (none, [none]) := by
    rw [stderrStep_match hmN hdur, helN]
    simp [jsNeq]
  refine ⟨⟨?_, by decide, by simp [List.chain'_cons]⟩, ?_⟩
  · simp only [runStderr, s1, s2, s3]
    decide
  · simp only [runStderr, sN]
    decide

/-- **C2 amended**: per job, every numeric emitted percentage lies in
`[0,100]`; consecutive writes always differ (the `pct !== lastPct` guard),
but only against the immediately preceding value; when every matched
chunk's elapsed time parses (no `NaN`) and those times are non-decreasing —
as for a real encoder's stderr — the emitted values are strictly
increasing, hence pairwise distinct and non-decreasing. -/
theorem c2_amended :
    (∀ (dur : ℚ) (last : Option ℤ) (chunks : List String) (n : ℤ),
        some n ∈ (runStderr dur last chunks).2 → 0 ≤ n ∧ n ≤ 100)
  ∧ (∀ (dur : ℚ) (last : Option ℤ) (chunks : List String),
        List.Chain (fun a b => jsNeq b a = true) last (runStderr dur last chunks).2)
  ∧ (∀ (dur : ℚ) (chunks : List String), 0 < dur →
        (chunks.filterMap (fun c => (timeOf c).bind id)).Sorted (· ≤ ·) →
        (∀ c ∈ chunks, timeOf c ≠ some none) →
        ∃ ns : List ℤ, (runStderr dur (some (-1)) chunks).2 = ns.map some
          ∧ List.Chain (· < ·) (-1) ns) :=
  ⟨fun _ _ _ _ h => runStderr_bounds h,
   fun dur last chunks => runStderr_chain dur last chunks,
   fun dur chunks hdur hs hg =>
     runStderr_mono hdur chunks (-1) hs hg
       (fun t _ => le_trans (by norm_num) (pctOf_nonneg dur t))⟩

/-- **C2 amended witness**: the monotone clause instantiated at a concrete
one-chunk stream. -/
theorem c2_amended_witness :
    (0 : ℚ) < 1
  ∧ ∃ ns : List ℤ, (runStderr 1 (some (-1)) ["no marker"]).2 = ns.map some
      ∧ List.Chain (· < ·) (-1) ns :=
  ⟨by norm_num, c2_amended.2.2 1 ["no marker"] (by norm_num) (by decide) (by decide)⟩

/-! Lines written by the handler are distinguished by their first
character: progress lines start with `p`, the download line with `d`, the
status lines with `s`. -/

lemma progressLine_head (v : Option ℤ) : (progressLine v).data.head? = some 'p' := by
  cases v <;> rfl

lemma head_ne {a b : String} (h : a.data.head? ≠ b.data.head?) : a ≠ b :=
  fun hab => h (by rw [hab])

lemma progressLine_ne (v : Option ℤ) {s : String} (hs : s.data.head? ≠ some 'p') :
    progressLine v ≠ s :=
  head_ne (by rw [progressLine_head]; exact fun hh => hs hh.symm)

lemma count_map_progressLine (l : List (Option ℤ)) {s : String}
    (hs : s.data.head? ≠ some 'p') : (l.map progressLine).count s = 0 := by
  rw [List.count_eq_zero]
  intro hmem
  rw [List.mem_map] at hmem
  obtain ⟨v, -, hv⟩ := hmem
  exact progressLine_ne v hs hv

lemma downloadLine_ne_status (url s : String) (hs : s.data.head? = some 's') :
    ("download:" ++ url ++ "\n") ≠ s := by
  apply head_ne
  have hd : ("download:" ++ url ++ "\n").data.head? = some 'd' := rfl
  rw [hd, hs]
  decide

/-- **C1**: every job run ends the response exactly once with exactly one
terminal outcome: the body is a sequence of `progress:` lines followed by
either the `download:<url>` + `status:done` pair or the single
`status:error` line; exactly one status line ever appears, and the terminal
line is the last thing written before the response is closed. -/
theorem c1_one_terminal (tmp url : String) (dur : ℚ) (run : JobRun) :
    (handleUpload tmp url dur run).1.ended = true
  ∧ (∃ prog : List (Option ℤ),
      (handleUpload tmp url dur run).1.body
          = prog.map progressLine ++ ["download:" ++ url ++ "\n", "status:done\n"]
        ∨ (handleUpload tmp url dur run).1.body
          = prog.map progressLine ++ ["status:error\n"])
  ∧ (handleUpload tmp url dur run).1.body.count "status:done\n"
      + (handleUpload tmp url dur run).1.body.count "status:error\n" = 1
  ∧ ((handleUpload tmp url dur run).1.body.getLast? = some "status:done\n"
      ∨ (handleUpload tmp url dur run).1.body.getLast? = some "status:error\n") := by
  have hdone : ("status:done\n" : String).data.head? ≠ some 'p' := by decide
  have herr : ("status:error\n" : String).data.head? ≠ some 'p' := by decide
  cases run with
  | setupErr =>
    refine ⟨rfl, ⟨[], Or.inr rfl⟩, ?_, Or.inr rfl⟩
    show (["status:error\n"] : List String).count "status:done\n"
        + (["status:error\n"] : List String).count "status:error\n" = 1
    decide
  | proc chunks term =>
    set prog := (runStderr dur (some (-1)) chunks).2 with hprog
    have hcd := count_map_progressLine prog hdone
    have hce := count_map_progressLine prog herr
    have hdl := downloadLine_ne_status url "status:done\n" rfl
    have hdle := downloadLine_ne_status url "status:error\n" rfl
    cases term with
    | procErr =>
      refine ⟨rfl, ⟨prog, Or.inr rfl⟩, ?_, Or.inr ?_⟩
      · show ((prog.map progressLine ++ ["status:error\n"]).count "status:done\n")
            + ((prog.map progressLine ++ ["status:error\n"]).count "status:error\n") = 1
        rw [List.count_append, List.count_append, hcd, hce]
        decide
      · show (prog.map progressLine ++ ["status:error\n"]).getLast? = some "status:error\n"
        simp
    | close code =>
      by_cases hc : code = some 0
      · have hbody : (handleUpload tmp url dur (.proc chunks (.close code))).1.body
            = prog.map progressLine ++ ["download:" ++ url ++ "\n", "status:done\n"] := by
          simp only [handleUpload, if_pos hc]
        refine ⟨?_, ⟨prog, Or.inl hbody⟩, ?_, Or.inl ?_⟩
        · simp only [handleUpload, if_pos hc]
        · rw [hbody, List.count_append, List.count_append, hcd, hce]
          have h1 : ("status:done\n" : String) ≠ "download:" ++ url ++ "\n" := Ne.symm hdl
          have h2 : ("status:error\n" : String) ≠ "download:" ++ url ++ "\n" := Ne.symm hdle
          simp [List.count_cons, h1, h2]
        · rw [hbody]
          simp
      · have hbody : (handleUpload tmp url dur (.proc chunks (.close code))).1.body
            = prog.map progressLine ++ ["status:error\n"] := by
          simp only [handleUpload, if_neg hc]
        refine ⟨?_, ⟨prog, Or.inr hbody⟩, ?_, Or.inr ?_⟩
        · simp only [handleUpload, if_neg hc]
        · rw [hbody, List.count_append, List.count_append, hcd, hce]
          decide
        · rw [hbody]
          simp

/-- **C4**: on every terminating path — success, non-zero exit, spawn
error, and an exception during request handling — exactly one `fs.unlink`
is issued, and its target is the temporary upload; no other path (in
particular not the output file) is ever deleted. -/
theorem c4_unlink_once (tmp url : String) (dur : ℚ) (run : JobRun) :
    (handleUpload tmp url dur run).2 = [tmp]
  ∧ ∀ p : String, p ≠ tmp → p ∉ (handleUpload tmp url dur run).2 := by
  have hdel : (handleUpload tmp url dur run).2 = [tmp] := by
    rcases run with _ | ⟨chunks, term⟩
    · rfl
    · rcases term with code | _
      · by_cases hc : code = some 0 <;> simp [handleUpload, hc]
      · rfl
  exact ⟨hdel, fun p hp => by rw [hdel]; simpa using hp⟩

/-- **C4 witness**: the output path is not among the deleted paths of a
concrete successful job. -/
theorem c4_unlink_once_witness :
    ("/srv/app/downloads/movie_desq_0.mp4" : String) ≠ "/tmp/desq_uploads/abc"
  ∧ "/srv/app/downloads/movie_desq_0.mp4"
      ∉ (handleUpload "/tmp/desq_uploads/abc" "u" 1 (.proc [] (.close (some 0)))).2 :=
  ⟨by decide,
   (c4_unlink_once "/tmp/desq_uploads/abc" "u" 1 (.proc [] (.close (some 0)))).2
     "/srv/app/downloads/movie_desq_0.mp4" (by decide)⟩

/-- **C8**: with probed duration 0 the `dur > 0` guard blocks every
progress write, whatever the stderr chunks are, but a terminal line is
still written and the response is closed. -/
theorem c8_zero_duration (tmp url : String) (run : JobRun) :
    ((handleUpload tmp url 0 run).1.body
        = ["download:" ++ url ++ "\n", "status:done\n"]
      ∨ (handleUpload tmp url 0 run).1.body = ["status:error\n"])
  ∧ (handleUpload tmp url 0 run).1.ended = true := by
  rcases run with _ | ⟨chunks, term⟩
  · exact ⟨Or.inr rfl, rfl⟩
  · have hrun : (runStderr 0 (some (-1)) chunks).2 = [] :=
      congrArg Prod.snd (runStderr_nonpos le_rfl (some (-1)) chunks)
    rcases term with code | _
    · by_cases hc : code = some 0
      · refine ⟨Or.inl ?_, ?_⟩ <;> simp [handleUpload, hc, hrun]
      · refine ⟨Or.inr ?_, ?_⟩ <;> simp [handleUpload, hc, hrun]
    · exact ⟨Or.inr (by simp [handleUpload, hrun]), rfl⟩

/-- A run that the handler reports as a failure: an exception during setup,
a spawn error, or an exit code other than 0. -/
def isFailure : JobRun → Prop
  | .setupErr => True
  | .proc _ (.close code) => code ≠ some 0
  | .proc _ .procErr => True

/-- **C9**: every response — on success and on every failure path — carries
HTTP status 200 with `text/plain` content type and chunked transfer
encoding; failure is conveyed solely by the final body line
`status:error`, never by the HTTP status code. -/
theorem c9_http_envelope (tmp url : String) (dur : ℚ) (run : JobRun) :
    (handleUpload tmp url dur run).1.status = 200
  ∧ (handleUpload tmp url dur run).1.contentType = "text/plain; charset=utf-8"
  ∧ (handleUpload tmp url dur run).1.transferEncoding = "chunked"
  ∧ (isFailure run →
      (handleUpload tmp url dur run).1.body.getLast? = some "status:error\n") := by
  rcases run with _ | ⟨chunks, term⟩
  · exact ⟨rfl, rfl, rfl, fun _ => rfl⟩
  · rcases term with code | _
    · by_cases hc : code = some 0
      · refine ⟨?_, ?_, ?_, ?_⟩ <;> simp [handleUpload, hc, initialResponse]
        intro hfail
        exact absurd rfl hfail
      · refine ⟨?_, ?_, ?_, ?_⟩ <;> simp [handleUpload, hc, initialResponse]
    · exact ⟨rfl, rfl, rfl, fun _ => by simp [handleUpload]⟩

/-- **C9 witness**: the failure clause instantiated at a spawn-error run. -/
theorem c9_http_envelope_witness :
    (handleUpload "t" "u" 1 (.proc [] .procErr)).1.status = 200
  ∧ (handleUpload "t" "u" 1 (.proc [] .procErr)).1.body.getLast?
      = some "status:error\n" :=
  ⟨(c9_http_envelope "t" "u" 1 (.proc [] .procErr)).1,
   (c9_http_envelope "t" "u" 1 (.proc [] .procErr)).2.2.2 trivial⟩

end Desqueeze
